import Mathlib

/-!
Verification of the Knight's-Tour solver (`KnightTourSolver.py`).

The Python class `KnightTourSolver` is shallowly embedded here.  A board is a
total function `ℕ → ℕ → ℕ` (0 = empty square, `k` = k-th visited square); the
class field `size` becomes an explicit parameter `n`.  Python loops that are
not structurally terminating (`wandorf_fill`'s walk, `shortest_path_length`'s
BFS, `solve`'s generation loop, `verify`'s walk) take an explicit fuel
argument and return `none` while still running; `none` also models a Python
exception (e.g. subscripting `None`), which likewise means "no value was
returned".  All functions are computable so that concrete runs can be
evaluated by `decide`.
-/

namespace KnightTour

abbrev Pos := ℕ × ℕ

abbrev Board := ℕ → ℕ → ℕ

/-- The class-level constant `deltas` (line 17), in its exact source order. -/
def deltas : List (ℤ × ℤ) :=
  [(-1, 2), (-2, 1), (-2, -1), (-1, -2), (1, -2), (2, -1), (2, 1), (1, 2)]

/-- A position lies on the `n`×`n` grid. -/
def inRange (n : ℕ) (p : Pos) : Prop := p.1 < n ∧ p.2 < n

instance (n : ℕ) (p : Pos) : Decidable (inRange n p) := by
  unfold inRange; infer_instance

/-- `create_empty_board` (lines 23-24): the all-zero board. -/
def create_empty_board : Board := fun _ _ => 0

/-- Reading a cell `brd[p.1][p.2]`. -/
def cell (b : Board) (p : Pos) : ℕ := b p.1 p.2

/-- Writing a cell: `brd[p.1][p.2] = v`. -/
def write (b : Board) (p : Pos) (v : ℕ) : Board :=
  fun r c => if r = p.1 ∧ c = p.2 then v else b r c

/-- The simultaneous swap `b[f1], b[f2] = b[f2], b[f1]` (line 208). -/
def swapCells (b : Board) (p q : Pos) : Board :=
  fun r c => if (r, c) = p then cell b q else if (r, c) = q then cell b p else b r c

/-- `get_accessible_fields` (lines 26-36): all in-bounds knight moves from a
square, produced in the fixed `deltas` order. -/
def get_accessible_fields (n : ℕ) (p : Pos) : List Pos :=
  deltas.filterMap (fun d =>
    let r : ℤ := (p.1 : ℤ) + d.1
    let c : ℤ := (p.2 : ℤ) + d.2
    if 0 ≤ r ∧ r < (n : ℤ) ∧ 0 ≤ c ∧ c < (n : ℤ) then some (r.toNat, c.toNat) else none)

/-- `get_possible_jumps` (lines 38-49): the accessible squares that are empty. -/
def get_possible_jumps (n : ℕ) (b : Board) (p : Pos) : List Pos :=
  (get_accessible_fields n p).filter (fun q => cell b q = 0)

/-- The Warnsdorff degree of a candidate square: `len(tuple(get_possible_jumps(brd, *jump)))`
(line 71). -/
def degree (n : ℕ) (b : Board) (p : Pos) : ℕ := (get_possible_jumps n b p).length

/-- The fold at lines 69-73: `best_deg, best_jump = 9, (0, 0)` followed by
keeping the first strictly smaller degree. -/
def best_jump_fold (n : ℕ) (b : Board) (jumps : List Pos) : ℕ × Pos :=
  jumps.foldl (fun acc j => if degree n b j < acc.1 then (degree n b j, j) else acc)
    (9, ((0 : ℕ), (0 : ℕ)))

/-- `wandorf_fill` (lines 51-75).  Writes `num` into the current square,
stops (returning the blocked square and the board) when there is no empty
accessible square, otherwise moves to the jump selected by the degree fold.
The Python function mutates `brd` in place and returns only the position; the
embedding returns the mutated board alongside it. -/
def wandorf_fill (n : ℕ) (b : Board) (p : Pos) (num : ℕ) : ℕ → Option (Pos × Board)
  | 0 => none
  | fuel + 1 =>
    let b' := write b p num
    let jumps := get_possible_jumps n b' p
    if jumps.isEmpty then some (p, b')
    else wandorf_fill n b' (best_jump_fold n b' jumps).2 (num + 1) fuel

/-- `get_next` (lines 77-89): the first accessible square whose value is one
more than the value of `p`. -/
def get_next (n : ℕ) (b : Board) (p : Pos) : Option Pos :=
  (get_accessible_fields n p).find? (fun q => cell b q = cell b p + 1)

/-- `get_prev` (lines 91-103): the first accessible square whose value is one
less than the value of `p`.  The comparison is over ℤ because Python computes
`brd[r][c] - 1` on ints (so a square of value 0 looks for value -1). -/
def get_prev (n : ℕ) (b : Board) (p : Pos) : Option Pos :=
  (get_accessible_fields n p).find? (fun q => (cell b q : ℤ) = (cell b p : ℤ) - 1)

/-- Row-major enumeration of the grid, matching the nested
`for r in range(size): for c in range(size)` loops. -/
def rowMajor (n : ℕ) : List Pos :=
  (List.range n).flatMap (fun r => (List.range n).map (fun c => (r, c)))

/-- `find` (lines 105-116): first square (row-major) holding `num`. -/
def find (n : ℕ) (b : Board) (num : ℕ) : Option Pos :=
  (rowMajor n).find? (fun p => cell b p = num)

/-- `get_max` (lines 118-129): position of the first strict running maximum
over the row-major scan, starting from `m, mr, mc = 0, 0, 0`. -/
def get_max (n : ℕ) (b : Board) : Pos :=
  ((rowMajor n).foldl (fun acc p => if cell b p > acc.1 then (cell b p, p) else acc)
    (0, ((0 : ℕ), (0 : ℕ)))).2

/-- The `while brd[r][c] < brd[m]` walk of `verify` (lines 140-145).
`none` models the `TypeError` raised when `get_next` returns `None`,
or exhausted fuel. -/
def verify_loop (n : ℕ) (b : Board) (mval : ℕ) (p : Pos) (i : ℕ) : ℕ → Option Bool
  | 0 => none
  | fuel + 1 =>
    if cell b p < mval then
      match get_next n b p with
      | none => none
      | some q => if cell b q ≠ i then some false else verify_loop n b mval q (i + 1) fuel
    else some true

/-- `verify` (lines 131-145).  `none` models the crash when no square holds 1
(`find` returns `None` and unpacking fails), or exhausted fuel. -/
def verify (n : ℕ) (b : Board) (fuel : ℕ) : Option Bool :=
  match find n b 1 with
  | none => none
  | some p => verify_loop n b (cell b (get_max n b)) p 2 fuel

/-- One BFS frontier expansion of `shortest_path_length` (lines 162-166):
`temp = set of all accessible fields of all squares in checked`. -/
def frontierStep (n : ℕ) (checked : List Pos) : List Pos :=
  (checked.flatMap (get_accessible_fields n)).dedup

/-- The `while True` loop of `shortest_path_length` (lines 159-167), fueled. -/
def spl_loop (n : ℕ) (target : Pos) (checked : List Pos) (d : ℕ) : ℕ → Option ℕ
  | 0 => none
  | fuel + 1 =>
    if target ∈ checked then some d
    else spl_loop n target (frontierStep n checked) (d + 1) fuel

/-- `shortest_path_length` (lines 147-167): BFS hop count from `a` to `b`.
The Python loop does not terminate when `b` is unreachable from `a`; the
embedding returns `none` for every fuel in that case. -/
def shortest_path_length (n : ℕ) (a b : Pos) (fuel : ℕ) : Option ℕ :=
  spl_loop n b [a] 0 fuel

/-- `empty_fields` of `get_rank` (line 179), in row-major order. -/
def empty_fields (n : ℕ) (b : Board) : List Pos :=
  (rowMajor n).filter (fun p => cell b p = 0)

/-- The `min` fold of `get_rank` (lines 180-184): `none` as accumulator is the
`inf` start value.  The outer `Option` is `none` while a BFS call is still
running. -/
def rank_fold (n : ℕ) (last : Pos) (fuel : ℕ) : List Pos → Option ℕ → Option (Option ℕ)
  | [], acc => some acc
  | f :: rest, acc =>
    match shortest_path_length n last f fuel with
    | none => none
    | some d =>
      match acc with
      | none => rank_fold n last fuel rest (some d)
      | some m => rank_fold n last fuel rest (some (min d m))

/-- `get_rank` (lines 169-184).  `lastArg = none` models the `last=None`
default, in which case `get_max` supplies the start square.  The result
`some none` is the `inf` rank of a board with no empty square. -/
def get_rank (n : ℕ) (b : Board) (lastArg : Option Pos) (fuel : ℕ) : Option (Option ℕ) :=
  let last := lastArg.getD (get_max n b)
  rank_fold n last fuel (empty_fields n b) none

/-- The reversal loop of `reroute` (lines 205-210).  The cursors are
`Option Pos` because `get_next`/`get_prev` can return `None`; starting an
iteration with a `None` cursor models the crash of `self.get_next(b, *f1)`
unpacking `None`.  Both successors are computed on the board before the swap,
as in the source. -/
def reroute_loop (n : ℕ) (b : Board) (f1 f2 : Option Pos) : ℕ → Option Board
  | 0 => some b
  | count + 1 =>
    match f1, f2 with
    | some p1, some p2 =>
      reroute_loop n (swapCells b p1 p2) (get_next n b p1) (get_prev n b p2) count
    | _, _ => none

/-- The iteration count `(b[last] - b[end]) // 2 + 1` of line 206, computed in
ℤ exactly as Python does (`range` of a non-positive number is empty, hence
`toNat`). -/
def reroute_count (b : Board) (last endp : Pos) : ℕ :=
  (((cell b last : ℤ) - (cell b endp : ℤ)) / 2 + 1).toNat

/-- Sequential processing of `possible_ends` in `reroute` (lines 199-212).
Returns the candidates yielded so far and a flag that is `true` when the
generator finished normally (`false`: it crashed on a `None` end or inside
the reversal loop, or a rank BFS was still running). -/
def reroute_go (n : ℕ) (b : Board) (last : Pos) (fuel : ℕ) :
    List (Option Pos) → List (Board × Pos × Option ℕ) → List (Board × Pos × Option ℕ) × Bool
  | [], acc => (acc, true)
  | oe :: rest, acc =>
    match oe with
    | none => (acc, false)
    | some endp =>
      if endp = last then reroute_go n b last fuel rest acc
      else
        match reroute_loop n b (some endp) (some last) (reroute_count b last endp) with
        | none => (acc, false)
        | some b' =>
          match get_rank n b' none fuel with
          | none => (acc, false)
          | some rk => reroute_go n b last fuel rest (acc ++ [(b', endp, rk)])

/-- `reroute` (lines 186-212): for every accessible field of `last`, its
numeric successor is a `possible_end`; each end other than `last` yields a
reversed board copy, the end square, and the rank of the new board. -/
def reroute (n : ℕ) (b : Board) (last : Pos) (fuel : ℕ) :
    List (Board × Pos × Option ℕ) × Bool :=
  reroute_go n b last fuel ((get_accessible_fields n last).map (get_next n b)) []

/-- The value stored under one key of the result dict returned by `solve`.
The `time` entry's float payload (wall-clock time) is not modelled. -/
inductive ResVal where
  | board (b : Board)
  | nat (k : ℕ)
  | time
deriving Inhabited

/-- A `solve` result: the Python dict, as an ordered key/value list. -/
abbrev Result := List (String × ResVal)

/-- The dict literal returned on a first-try success (lines 243-248). -/
def mkResultFirst (b : Board) : Result :=
  [("board", ResVal.board b), ("iterations", ResVal.nat 0),
   ("reroutes", ResVal.nat 0), ("time", ResVal.time)]

/-- The dict literal returned from the generation loop (lines 278-283). -/
def mkResultLoop (b : Board) (reroutes iterations : ℕ) : Result :=
  [("board", ResVal.board b), ("reroutes", ResVal.nat reroutes),
   ("iterations", ResVal.nat iterations), ("time", ResVal.time)]

/-- Outcome of processing one generation of trials. -/
inductive GenRes where
  | found (res : Result)
  | next (boards : List (Board × Pos)) (rc : ℕ)
  | stuck

/-- Outcome of the inner `for rerouted in self.reroute(brd, last)` loop
(lines 263-288) over the already-yielded candidates of one trial. -/
inductive CandRes where
  | found (res : Result)
  | brk (acc : List (Board × Pos)) (rc : ℕ)
  | norm (acc : List (Board × Pos)) (rc : ℕ)
  | stuck

/-- The body of the candidate loop (lines 263-288): count every yielded
candidate; on rank 1 resume `wandorf_fill` from the candidate's end square
with its own value, return the dict on a full board, otherwise break
(`found_deg1_board`); on any other rank append `(board, end)` to the next
generation. -/
def process_cands (n : ℕ) (i : ℕ) (fuel : ℕ) :
    List (Board × Pos × Option ℕ) → List (Board × Pos) → ℕ → CandRes
  | [], acc, rc => CandRes.norm acc rc
  | (b', endp, rk) :: rest, acc, rc =>
    if rk = some 1 then
      match wandorf_fill n b' endp (cell b' endp) fuel with
      | none => CandRes.stuck
      | some (las2, b2) =>
        if cell b2 las2 = n * n then CandRes.found (mkResultLoop b2 (rc + 1) i)
        else CandRes.brk acc (rc + 1)
    else process_cands n i fuel rest (acc ++ [(b', endp)]) (rc + 1)

/-- The `for (brd, last) in boards` loop (lines 260-290).  A deg-1 break
stops the scan of the remaining trials; a crash or still-running rank BFS
inside `reroute` surfaces as `stuck` only if the candidates yielded before it
did not already break or return. -/
def process_trials (n : ℕ) (i : ℕ) (fuel : ℕ) :
    List (Board × Pos) → List (Board × Pos) → ℕ → GenRes
  | [], acc, rc => GenRes.next acc rc
  | (b, last) :: rest, acc, rc =>
    match reroute n b last fuel with
    | (cands, ok) =>
      match process_cands n i fuel cands acc rc with
      | CandRes.found res => GenRes.found res
      | CandRes.brk acc' rc' => GenRes.next acc' rc'
      | CandRes.norm acc' rc' =>
        if ok then process_trials n i fuel rest acc' rc' else GenRes.stuck
      | CandRes.stuck => GenRes.stuck

/-- The `while not solution_found` generation loop (lines 253-294).  The
Python loop never sets `solution_found`; it exits only through a `return`,
so an empty generation spins forever (i.e. `none` for every fuel). -/
def solve_loop (n : ℕ) (boards : List (Board × Pos)) (rc i : ℕ) : ℕ → Option Result
  | 0 => none
  | fuel + 1 =>
    match process_trials n (i + 1) fuel boards [] rc with
    | GenRes.found res => some res
    | GenRes.next boards' rc' => solve_loop n boards' rc' (i + 1) fuel
    | GenRes.stuck => none

/-- `solve` (lines 230-294): Warnsdorff fill, first-try check (with the
short-circuiting `and` of line 238), then the generation loop. -/
def solve (n : ℕ) (b : Board) (startR startC : ℕ) (fuel : ℕ) : Option Result :=
  match wandorf_fill n b (startR, startC) 1 fuel with
  | none => none
  | some (las, b1) =>
    if cell b1 las = n * n then
      match verify n b1 fuel with
      | none => none
      | some true => some (mkResultFirst b1)
      | some false => solve_loop n [(b1, las)] 0 0 fuel
    else solve_loop n [(b1, las)] 0 0 fuel

/-- Concrete boards are given as literal rows; absent cells read 0. -/
def ofList (l : List (List ℕ)) : Board :=
  fun r c => (((l.get? r).bind (fun row => row.get? c)).getD 0)

/-! ### Specification vocabulary and concrete instances

`Inv n k b pth` is the invariant of spec §3: the filled values of `b` are
exactly the multiset `{1, …, k}`, each exactly once (`pth v` being the
square holding `v`), squares off the `n`×`n` grid are empty, and consecutive
values sit on knight-adjacent squares.  `mask` and `revTarget` describe the
intermediate and final boards of the reversal loop; `reachN`/`iterFrontier`
describe the BFS of `shortest_path_length`; `pyIdx`/`pySetCell` model Python
list indexing for the unvalidated start coordinates of claim C5. -/

def Inv (n k : ℕ) (b : Board) (pth : ℕ → Pos) : Prop :=
  1 ≤ k ∧
  (∀ w, w < k → inRange n (pth (w + 1)) ∧ cell b (pth (w + 1)) = w + 1) ∧
  (∀ r, r < n → ∀ c, c < n → b r c ≠ 0 → b r c ≤ k ∧ (r, c) = pth (b r c)) ∧
  (∀ r c, ¬ (r < n ∧ c < n) → b r c = 0) ∧
  (∀ w, w + 1 < k → pth (w + 2) ∈ get_accessible_fields n (pth (w + 1)))

/-- The board of the reversal loop after some iterations: the values of the
segment `[e, k]` outside the inner window `[a, z]` are already reversed
(`v ↦ e + k - v`). -/
def mask (b : Board) (e a z k : ℕ) : Board :=
  fun r c => if e ≤ b r c ∧ b r c < a ∨ z < b r c ∧ b r c ≤ k then e + k - b r c else b r c

/-- The fully reversed board: the whole value segment `[e, k]` reversed. -/
def revTarget (b : Board) (e k : ℕ) : Board :=
  fun r c => if e ≤ b r c ∧ b r c ≤ k then e + k - b r c else b r c

/-- `reachN n j a q`: there is a walk of exactly `j` knight moves from `a`
to `q` on the `n`×`n` board. -/
def reachN (n : ℕ) : ℕ → Pos → Pos → Prop
  | 0, a, q => q = a
  | j + 1, a, q => ∃ c, reachN n j a c ∧ q ∈ get_accessible_fields n c

/-- The `j`-fold frontier expansion, in the order `spl_loop` performs it. -/
def iterFrontier (n : ℕ) : ℕ → List Pos → List Pos
  | 0, ch => ch
  | j + 1, ch => iterFrontier n j (frontierStep n ch)

/-- A 5×5 board carrying the knight path
`(1,2)=1 → (3,3)=2 → (2,1)=3 → (0,0)=4`; its terminal `(0,0)` is blocked
(both accessible neighbours `(1,2)` and `(2,1)` are filled). -/
def exB : Board :=
  ofList [[4, 0, 0, 0, 0], [0, 0, 1, 0, 0], [0, 3, 0, 0, 0], [0, 0, 0, 2, 0], [0, 0, 0, 0, 0]]

/-- The position map of `exB`. -/
def exPth : ℕ → Pos := fun v =>
  if v = 1 then (1, 2) else if v = 2 then (3, 3) else if v = 3 then (2, 1) else (0, 0)

/-- The duplicate-value board: a genuine knight chain
`(0,0)=1 → (1,2)=2 → (2,4)=3 → (4,3)=4` plus a decoy square `(0,4)` also
holding 4, off the walked chain. -/
def dupB : Board :=
  ofList [[1, 0, 0, 0, 4], [0, 0, 2, 0, 0], [0, 0, 0, 0, 3], [0, 0, 0, 0, 0], [0, 0, 0, 4, 0]]

/-- The first Warnsdorff fill on the empty 3×3 board from `(0,0)` (it fills
the 8 non-centre squares and blocks; fuel 9 completes it). -/
def w3 : Pos × Board :=
  (wandorf_fill 3 create_empty_board (0, 0) 1 9).getD ((0, 0), create_empty_board)

/-- Python list index resolution: `l[i]` uses `i` for `0 ≤ i < len`, wraps
negative `i` in `[-len, 0)` to `len + i`, and raises `IndexError` (`none`)
otherwise. -/
def pyIdx (len : ℕ) (i : ℤ) : Option ℕ :=
  if 0 ≤ i ∧ i < (len : ℤ) then some i.toNat
  else if -(len : ℤ) ≤ i ∧ i < 0 then some ((len : ℤ) + i).toNat
  else none

/-- The Python assignment `brd[r][c] = v` on a list-of-lists board with ℤ
indices. -/
def pySetCell (brd : List (List ℕ)) (r c : ℤ) (v : ℕ) : Option (List (List ℕ)) :=
  match pyIdx brd.length r with
  | none => none
  | some r2 =>
    match brd.get? r2 with
    | none => none
    | some row =>
      match pyIdx row.length c with
      | none => none
      | some c2 => some (brd.set r2 (row.set c2 v))

/-- `solve` (line 235) passes `start_r, start_c` to `wandorf_fill` with no
bounds check of any kind; the first statement `wandorf_fill` executes
(line 62) is the assignment `brd[r][c] = num` with `num = 1`.  This is that
first assignment under Python list-index semantics, with the start
coordinates kept as ℤ as Python receives them. -/
def solve_first_write (brd : List (List ℕ)) (startR startC : ℤ) : Option (List (List ℕ)) :=
  pySetCell brd startR startC 1

/-- The empty 5×5 board as a Python list of lists. -/
def empty5 : List (List ℕ) :=
  [[0, 0, 0, 0, 0], [0, 0, 0, 0, 0], [0, 0, 0, 0, 0], [0, 0, 0, 0, 0], [0, 0, 0, 0, 0]]

/-! ### Generic helper lemmas -/

theorem find?_eq_some_of_unique {α : Type} (l : List α) (p : α → Bool) (x : α)
    (hx : x ∈ l) (hpx : p x = true) (huniq : ∀ y ∈ l, p y = true → y = x) :
    l.find? p = some x := by
  induction l with
  | nil => cases hx
  | cons a t ih =>
    by_cases hpa : p a = true
    · have : a = x := huniq a (by simp) hpa
      subst this
      simp [List.find?, hpa]
    · have hax : x ≠ a := by
        intro h; exact hpa (h ▸ hpx)
      have hx' : x ∈ t := by
        rcases List.mem_cons.mp hx with h | h
        · exact absurd h hax
        · exact h
      have := ih hx' (fun y hy hpy => huniq y (List.mem_cons_of_mem _ hy) hpy)
      simp only [List.find?]
      rw [Bool.not_eq_true] at hpa
      rw [hpa]
      exact this

theorem find?_isSome_of_mem {α : Type} (l : List α) (p : α → Bool) (x : α)
    (hx : x ∈ l) (hpx : p x = true) : (l.find? p).isSome = true := by
  induction l with
  | nil => cases hx
  | cons a t ih =>
    by_cases hpa : p a = true
    · simp [List.find?, hpa]
    · rw [Bool.not_eq_true] at hpa
      simp only [List.find?, hpa]
      rcases List.mem_cons.mp hx with h | h
      · subst h; rw [hpx] at hpa; cases hpa
      · exact ih h

/-- The fold `best_deg, best_jump = m0, x0; for x: if f x < best_deg: ...`
keeps the first occurrence of the minimum.  Either no element beats the
initial bound, or the list splits around the selected element, everything
before it being strictly worse and everything after it no better. -/
theorem foldl_first_min {α : Type} (f : α → ℕ) :
    ∀ (t : List α) (m0 : ℕ) (x0 : α),
      ((∀ y ∈ t, m0 ≤ f y) ∧
        t.foldl (fun acc x => if f x < acc.1 then (f x, x) else acc) (m0, x0) = (m0, x0)) ∨
      (∃ t₁ y t₂, t = t₁ ++ y :: t₂ ∧ f y < m0 ∧ (∀ z ∈ t₁, f y < f z) ∧
        (∀ z ∈ t₂, f y ≤ f z) ∧
        t.foldl (fun acc x => if f x < acc.1 then (f x, x) else acc) (m0, x0) = (f y, y)) := by
  intro t
  induction t with
  | nil => intro m0 x0; left; exact ⟨by simp, rfl⟩
  | cons a t ih =>
    intro m0 x0
    by_cases ha : f a < m0
    · rcases ih (f a) a with ⟨hall, heq⟩ | ⟨t₁, y, t₂, hsplit, hlt, hbef, haft, heq⟩
      · right
        refine ⟨[], a, t, rfl, ha, by simp, hall, ?_⟩
        simp only [List.foldl_cons, if_pos ha]
        exact heq
      · right
        refine ⟨a :: t₁, y, t₂, by rw [hsplit]; rfl, lt_trans hlt ha, ?_, haft, ?_⟩
        · intro z hz
          rcases List.mem_cons.mp hz with h | h
          · subst h; exact hlt
          · exact hbef z h
        · simp only [List.foldl_cons, if_pos ha]
          exact heq
    · push_neg at ha
      rcases ih m0 x0 with ⟨hall, heq⟩ | ⟨t₁, y, t₂, hsplit, hlt, hbef, haft, heq⟩
      · left
        refine ⟨?_, ?_⟩
        · intro y hy
          rcases List.mem_cons.mp hy with h | h
          · subst h; exact ha
          · exact hall y h
        · simp only [List.foldl_cons, if_neg (by omega : ¬ f a < m0)]
          exact heq
      · right
        refine ⟨a :: t₁, y, t₂, by rw [hsplit]; rfl, hlt, ?_, haft, ?_⟩
        · intro z hz
          rcases List.mem_cons.mp hz with h | h
          · subst h; omega
          · exact hbef z h
        · simp only [List.foldl_cons, if_neg (by omega : ¬ f a < m0)]
          exact heq

/-- The fold of `get_max` (`if b[p] > m: keep p`) ends at the unique element
achieving a value strictly above the start and at least everything else. -/
theorem foldl_max_unique {α : Type} (f : α → ℕ) (μ : ℕ) (y : α) :
    ∀ (l : List α) (m0 : ℕ) (x0 : α), m0 < μ → y ∈ l → f y = μ →
      (∀ z ∈ l, f z ≤ μ) → (∀ z ∈ l, f z = μ → z = y) →
      l.foldl (fun acc p => if f p > acc.1 then (f p, p) else acc) (m0, x0) = (μ, y) := by
  have stay : ∀ (l : List α) (x : α), (∀ z ∈ l, f z ≤ μ) →
      l.foldl (fun acc p => if f p > acc.1 then (f p, p) else acc) (μ, x) = (μ, x) := by
    intro l
    induction l with
    | nil => intro x _; rfl
    | cons a t ih =>
      intro x hle
      have : ¬ f a > μ := by have := hle a (by simp); omega
      simp only [List.foldl_cons, if_neg this]
      exact ih x (fun z hz => hle z (List.mem_cons_of_mem _ hz))
  intro l
  induction l with
  | nil => intro m0 x0 _ hy; cases hy
  | cons a t ih =>
    intro m0 x0 hm0 hy hfy hle huniq
    by_cases hay : a = y
    · subst hay
      have : f a > m0 := by omega
      simp only [List.foldl_cons, if_pos this]
      rw [hfy]
      exact stay t a (fun z hz => hle z (List.mem_cons_of_mem _ hz))
    · have hyt : y ∈ t := by
        rcases List.mem_cons.mp hy with h | h
        · exact absurd h.symm hay
        · exact h
      have hfa : f a < μ := by
        have h1 := hle a (by simp)
        rcases lt_or_eq_of_le h1 with h | h
        · exact h
        · exact absurd (huniq a (by simp) h) hay
      by_cases hgt : f a > m0
      · simp only [List.foldl_cons, if_pos hgt]
        exact ih (f a) a hfa hyt hfy (fun z hz => hle z (List.mem_cons_of_mem _ hz))
          (fun z hz hz' => huniq z (List.mem_cons_of_mem _ hz) hz')
      · simp only [List.foldl_cons, if_neg hgt]
        exact ih m0 x0 hm0 hyt hfy (fun z hz => hle z (List.mem_cons_of_mem _ hz))
          (fun z hz hz' => huniq z (List.mem_cons_of_mem _ hz) hz')

/-! ### Lemmas about the move generator -/

theorem mem_accessible {n : ℕ} {p q : Pos} :
    q ∈ get_accessible_fields n p ↔
      ∃ d ∈ deltas, (q.1 : ℤ) = (p.1 : ℤ) + d.1 ∧ (q.2 : ℤ) = (p.2 : ℤ) + d.2 ∧
        q.1 < n ∧ q.2 < n := by
  unfold get_accessible_fields
  rw [List.mem_filterMap]
  constructor
  · rintro ⟨d, hd, hq⟩
    simp only at hq
    split at hq
    · rename_i hcond
      obtain ⟨h1, h2, h3, h4⟩ := hcond
      refine ⟨d, hd, ?_, ?_, ?_, ?_⟩
      · have : (q.1 : ℤ) = ((p.1 : ℤ) + d.1).toNat := by
          rw [← Option.some_inj.mp hq]
        omega
      · have : (q.2 : ℤ) = ((p.2 : ℤ) + d.2).toNat := by
          rw [← Option.some_inj.mp hq]
        omega
      · have : q.1 = ((p.1 : ℤ) + d.1).toNat := by rw [← Option.some_inj.mp hq]
        omega
      · have : q.2 = ((p.2 : ℤ) + d.2).toNat := by rw [← Option.some_inj.mp hq]
        omega
    · cases hq
  · rintro ⟨d, hd, h1, h2, h3, h4⟩
    refine ⟨d, hd, ?_⟩
    simp only
    rw [if_pos ⟨by omega, by omega, by omega, by omega⟩]
    congr 1
    have e1 : ((p.1 : ℤ) + d.1).toNat = q.1 := by omega
    have e2 : ((p.2 : ℤ) + d.2).toNat = q.2 := by omega
    cases q
    simp [e1, e2]

theorem accessible_inRange {n : ℕ} {p q : Pos} (h : q ∈ get_accessible_fields n p) :
    inRange n q := by
  rcases mem_accessible.mp h with ⟨d, _, _, _, h3, h4⟩
  exact ⟨h3, h4⟩

theorem neg_mem_deltas {d : ℤ × ℤ} (h : d ∈ deltas) : (-d.1, -d.2) ∈ deltas := by
  simp only [deltas, List.mem_cons, List.not_mem_nil, or_false] at h ⊢
  rcases h with h | h | h | h | h | h | h | h <;> subst h <;> norm_num

theorem accessible_symm {n : ℕ} {p q : Pos} (hp : inRange n p)
    (h : q ∈ get_accessible_fields n p) : p ∈ get_accessible_fields n q := by
  rcases mem_accessible.mp h with ⟨d, hd, h1, h2, _, _⟩
  exact mem_accessible.mpr ⟨(-d.1, -d.2), neg_mem_deltas hd, by omega, by omega, hp.1, hp.2⟩

theorem not_self_mem_accessible {n : ℕ} {p : Pos} : p ∉ get_accessible_fields n p := by
  intro h
  rcases mem_accessible.mp h with ⟨d, hd, h1, h2, _, _⟩
  simp only [deltas, List.mem_cons, List.not_mem_nil, or_false] at hd
  rcases hd with h | h | h | h | h | h | h | h <;> subst h <;> omega

theorem length_accessible_le {n : ℕ} {p : Pos} :
    (get_accessible_fields n p).length ≤ 8 := by
  unfold get_accessible_fields
  calc (deltas.filterMap _).length ≤ deltas.length := List.length_filterMap_le _ _
    _ = 8 := rfl

/-! ### Lemmas about `ofList` boards -/

theorem ofList_outside {l : List (List ℕ)} {n : ℕ} (hl : l.length = n)
    (hrow : ∀ row ∈ l, row.length = n) :
    ∀ r c : ℕ, ¬ (r < n ∧ c < n) → ofList l r c = 0 := by
  intro r c h
  unfold ofList
  rcases Nat.lt_or_ge r n with hr | hr
  · have hc : n ≤ c := by omega
    have hrl : r < l.length := by omega
    rw [List.get?_eq_get hrl]
    have hlen : (l.get ⟨r, hrl⟩).length = n := hrow _ (l.get_mem _ _)
    show ((l.get ⟨r, hrl⟩).get? c).getD 0 = 0
    rw [List.get?_eq_none.mpr (by omega)]
    rfl
  · rw [List.get?_eq_none.mpr (by omega)]
    rfl

/-! ### Consequences of the path-contiguity invariant -/

theorem inv_cell_pth {n k : ℕ} {b : Board} {pth : ℕ → Pos} (hinv : Inv n k b pth)
    {v : ℕ} (h1 : 1 ≤ v) (h2 : v ≤ k) : inRange n (pth v) ∧ cell b (pth v) = v := by
  obtain ⟨-, h, -, -, -⟩ := hinv
  have hv := h (v - 1) (by omega)
  have e : v - 1 + 1 = v := by omega
  rw [e] at hv
  exact hv

theorem inv_pos_eq {n k : ℕ} {b : Board} {pth : ℕ → Pos} (hinv : Inv n k b pth)
    {p : Pos} {v : ℕ} (hv : 1 ≤ v) (hc : cell b p = v) : v ≤ k ∧ p = pth v := by
  obtain ⟨-, -, h3, h4, -⟩ := hinv
  by_cases hr : p.1 < n ∧ p.2 < n
  · have := h3 p.1 hr.1 p.2 hr.2 (by unfold cell at hc; omega)
    unfold cell at hc
    rw [hc] at this
    rcases this with ⟨hle, heq⟩
    exact ⟨hle, by rw [← heq]⟩
  · have h0 := h4 p.1 p.2 hr
    unfold cell at hc
    omega

theorem inv_adj {n k : ℕ} {b : Board} {pth : ℕ → Pos} (hinv : Inv n k b pth)
    {v : ℕ} (h1 : 1 ≤ v) (h2 : v < k) :
    pth (v + 1) ∈ get_accessible_fields n (pth v) := by
  obtain ⟨-, -, -, -, h5⟩ := hinv
  have hv := h5 (v - 1) (by omega)
  have e1 : v - 1 + 2 = v + 1 := by omega
  have e2 : v - 1 + 1 = v := by omega
  rw [e1, e2] at hv
  exact hv

theorem inv_pth_ne {n k : ℕ} {b : Board} {pth : ℕ → Pos} (hinv : Inv n k b pth)
    {u v : ℕ} (hu1 : 1 ≤ u) (huk : u ≤ k) (hv1 : 1 ≤ v) (hvk : v ≤ k)
    (huv : u ≠ v) : pth u ≠ pth v := by
  intro h
  have cu := (inv_cell_pth hinv hu1 huk).2
  have cv := (inv_cell_pth hinv hv1 hvk).2
  rw [h, cv] at cu
  exact huv cu.symm

/-! ### The reversal loop computes a segment reversal -/

theorem cell_mask {b : Board} {e a z k : ℕ} {q : Pos} :
    cell (mask b e a z k) q =
      if e ≤ cell b q ∧ cell b q < a ∨ z < cell b q ∧ cell b q ≤ k
      then e + k - cell b q else cell b q := rfl

theorem cell_revTarget {b : Board} {e k : ℕ} {q : Pos} :
    cell (revTarget b e k) q =
      if e ≤ cell b q ∧ cell b q ≤ k then e + k - cell b q else cell b q := rfl

theorem mask_init {b : Board} {e k : ℕ} : mask b e e k k = b := by
  funext r c
  unfold mask
  rw [if_neg (by omega)]

/-- Any nonzero value on a masked board locates a path square of the original
board, with the masked value determined by the original one. -/
theorem mask_cell_eq {n k : ℕ} {b : Board} {pth : ℕ → Pos} (hinv : Inv n k b pth)
    {e a z : ℕ} (he : 1 ≤ e) {q : Pos} {u : ℕ} (hu : 1 ≤ u)
    (hq : cell (mask b e a z k) q = u) :
    ∃ w, 1 ≤ w ∧ w ≤ k ∧ q = pth w ∧
      ((e ≤ w ∧ w < a ∨ z < w ∧ w ≤ k) ∧ u = e + k - w ∨
        ¬ (e ≤ w ∧ w < a ∨ z < w ∧ w ≤ k) ∧ u = w) := by
  rw [cell_mask] at hq
  by_cases hw0 : cell b q = 0
  · rw [hw0, if_neg (by omega)] at hq
    omega
  · have hw1 : 1 ≤ cell b q := by omega
    obtain ⟨hwk, hqe⟩ := inv_pos_eq hinv hw1 rfl
    refine ⟨cell b q, hw1, hwk, hqe, ?_⟩
    by_cases hcond : e ≤ cell b q ∧ cell b q < a ∨ z < cell b q ∧ cell b q ≤ k
    · left; exact ⟨hcond, by rw [if_pos hcond] at hq; omega⟩
    · right; exact ⟨hcond, by rw [if_neg hcond] at hq; omega⟩

theorem get_next_mask {n k : ℕ} {b : Board} {pth : ℕ → Pos} (hinv : Inv n k b pth)
    {e a z : ℕ} (he : 1 ≤ e) (hea : e ≤ a) (haz2 : a + 2 ≤ z) (hzk : z ≤ k)
    (hbal : a - e = k - z) :
    get_next n (mask b e a z k) (pth a) = some (pth (a + 1)) := by
  have hpa : cell (mask b e a z k) (pth a) = a := by
    rw [cell_mask, (inv_cell_pth hinv (by omega) (by omega)).2, if_neg (by omega)]
  unfold get_next
  rw [hpa]
  apply find?_eq_some_of_unique
  · exact inv_adj hinv (by omega) (by omega)
  · simp only [decide_eq_true_eq]
    rw [cell_mask, (inv_cell_pth hinv (by omega) (by omega)).2, if_neg (by omega)]
  · intro q hq hpq
    simp only [decide_eq_true_eq] at hpq
    obtain ⟨w, hw1, hwk, hqe, hcase⟩ := mask_cell_eq hinv he (by omega) hpq
    rcases hcase with ⟨hcond, hval⟩ | ⟨hcond, hval⟩
    · omega
    · rw [hqe]; congr 1; omega

theorem get_prev_mask {n k : ℕ} {b : Board} {pth : ℕ → Pos} (hinv : Inv n k b pth)
    {e a z : ℕ} (he : 1 ≤ e) (hea : e ≤ a) (haz2 : a + 2 ≤ z) (hzk : z ≤ k)
    (hbal : a - e = k - z) :
    get_prev n (mask b e a z k) (pth z) = some (pth (z - 1)) := by
  have hz2 : 2 ≤ z := by omega
  have hpz : cell (mask b e a z k) (pth z) = z := by
    rw [cell_mask, (inv_cell_pth hinv (by omega) hzk).2, if_neg (by omega)]
  have hmem : pth (z - 1) ∈ get_accessible_fields n (pth z) := by
    have hadj := inv_adj hinv (v := z - 1) (by omega) (by omega)
    have e1 : z - 1 + 1 = z := by omega
    rw [e1] at hadj
    exact accessible_symm (inv_cell_pth hinv (by omega) (by omega)).1 hadj
  unfold get_prev
  rw [hpz]
  apply find?_eq_some_of_unique
  · exact hmem
  · simp only [decide_eq_true_eq]
    rw [cell_mask, (inv_cell_pth hinv (by omega) (by omega)).2, if_neg (by omega)]
    omega
  · intro q hq hpq
    simp only [decide_eq_true_eq] at hpq
    have hq' : cell (mask b e a z k) q = z - 1 := by omega
    obtain ⟨w, hw1, hwk, hqe, hcase⟩ := mask_cell_eq hinv he (by omega) hq'
    rcases hcase with ⟨hcond, hval⟩ | ⟨hcond, hval⟩
    · omega
    · rw [hqe]; congr 1; omega

theorem swap_self {b : Board} {p : Pos} : swapCells b p p = b := by
  funext r c
  unfold swapCells cell
  by_cases h : (r, c) = p
  · rw [if_pos h]
    have : r = p.1 ∧ c = p.2 := Prod.mk.injEq .. ▸ h
    rw [this.1, this.2]
  · rw [if_neg h, if_neg h]

theorem swap_mask {n k : ℕ} {b : Board} {pth : ℕ → Pos} (hinv : Inv n k b pth)
    {e a z : ℕ} (he : 1 ≤ e) (hea : e ≤ a) (haz : a < z) (hzk : z ≤ k)
    (hbal : a - e = k - z) :
    swapCells (mask b e a z k) (pth a) (pth z) = mask b e (a + 1) (z - 1) k := by
  have hca : cell b (pth a) = a := (inv_cell_pth hinv (by omega) (by omega)).2
  have hcz : cell b (pth z) = z := (inv_cell_pth hinv (by omega) hzk).2
  funext r c
  show (if (r, c) = pth a then cell (mask b e a z k) (pth z)
        else if (r, c) = pth z then cell (mask b e a z k) (pth a)
        else mask b e a z k r c) = mask b e (a + 1) (z - 1) k r c
  by_cases h1 : (r, c) = pth a
  · rw [if_pos h1]
    rw [cell_mask, hcz, if_neg (by omega)]
    have hb : b r c = a := by
      have : r = (pth a).1 ∧ c = (pth a).2 := Prod.mk.injEq .. ▸ h1
      rw [this.1, this.2]; exact hca
    show z = mask b e (a + 1) (z - 1) k r c
    unfold mask
    rw [hb, if_pos (by omega)]
    omega
  · rw [if_neg h1]
    by_cases h2 : (r, c) = pth z
    · rw [if_pos h2]
      rw [cell_mask, hca, if_neg (by omega)]
      have hb : b r c = z := by
        have : r = (pth z).1 ∧ c = (pth z).2 := Prod.mk.injEq .. ▸ h2
        rw [this.1, this.2]; exact hcz
      show a = mask b e (a + 1) (z - 1) k r c
      unfold mask
      rw [hb, if_pos (by omega)]
      omega
    · rw [if_neg h2]
      by_cases hw0 : b r c = 0
      · unfold mask
        rw [hw0, if_neg (by omega), if_neg (by omega)]
      · obtain ⟨hwk, hqe⟩ := inv_pos_eq hinv (v := b r c) (by omega) (p := (r, c)) rfl
        have hwa : b r c ≠ a := by
          intro h
          apply h1
          rw [← h]
          exact hqe
        have hwz : b r c ≠ z := by
          intro h
          apply h2
          rw [← h]
          exact hqe
        unfold mask
        by_cases hcond : e ≤ b r c ∧ b r c < a ∨ z < b r c ∧ b r c ≤ k
        · rw [if_pos hcond, if_pos (by omega)]
        · rw [if_neg hcond, if_neg (by omega)]

theorem mask_final_eq {b : Board} {e a z k : ℕ} (he : 1 ≤ e) (hea : e ≤ a) (haz : a ≤ z)
    (hzk : z ≤ k) (_hbal : a - e = k - z) (hsmall : z ≤ a + 1) :
    mask b e (a + 1) (z - 1) k = revTarget b e k := by
  funext r c
  unfold mask revTarget
  by_cases hcond : e ≤ b r c ∧ b r c ≤ k
  · rw [if_pos (by omega), if_pos hcond]
  · rw [if_neg (by omega), if_neg hcond]

theorem mask_center_eq {b : Board} {e a k : ℕ} (he : 1 ≤ e) (hea : e ≤ a) (hak : a ≤ k)
    (hbal : a - e = k - a) :
    mask b e a a k = revTarget b e k := by
  funext r c
  unfold mask revTarget
  by_cases hcond : e ≤ b r c ∧ b r c ≤ k
  · by_cases hca : b r c = a
    · rw [if_neg (by omega), if_pos hcond]
      omega
    · rw [if_pos (by omega), if_pos hcond]
  · rw [if_neg (by omega), if_neg hcond]

/-- The reversal loop of `reroute`, run for exactly `(z - a) / 2 + 1` more
steps from the partially reversed board, completes the reversal of the value
segment `[e, k]`. -/
theorem rev_main {n k e : ℕ} {b : Board} {pth : ℕ → Pos} (hinv : Inv n k b pth)
    (he : 1 ≤ e) :
    ∀ m a z, e ≤ a → a ≤ z → z ≤ k → a - e = k - z → m = (z - a) / 2 + 1 →
      reroute_loop n (mask b e a z k) (some (pth a)) (some (pth z)) m =
        some (revTarget b e k) := by
  intro m
  induction m with
  | zero => intro a z _ _ _ _ hm; omega
  | succ m ih =>
    intro a z hea haz hzk hbal hm
    by_cases hsmall : z ≤ a + 1
    · have hm0 : m = 0 := by omega
      subst hm0
      simp only [reroute_loop]
      congr 1
      rcases Nat.eq_or_lt_of_le haz with heq | hlt
      · rw [← heq, swap_self]
        exact mask_center_eq he hea (by omega) (by omega)
      · rw [swap_mask hinv he hea hlt hzk hbal]
        exact mask_final_eq he hea haz hzk hbal hsmall
    · push_neg at hsmall
      have haz2 : a + 2 ≤ z := by omega
      simp only [reroute_loop]
      rw [get_next_mask hinv he hea haz2 hzk hbal,
        get_prev_mask hinv he hea haz2 hzk hbal,
        swap_mask hinv he hea (by omega) hzk hbal]
      exact ih (a + 1) (z - 1) (by omega) (by omega) (by omega) (by omega) (by omega)

/-- The reversed board `revTarget b e k` satisfies the full invariant again,
witnessed by the reversed position map.  The side condition says the segment
start is either 1 or the square `pth (e - 1)` is knight-adjacent to the old
terminal `pth k` — exactly what `reroute` guarantees for its ends. -/
theorem revTarget_inv {n k e : ℕ} {b : Board} {pth : ℕ → Pos} (hinv : Inv n k b pth)
    (he : 1 ≤ e) (hek : e ≤ k)
    (hb : e = 1 ∨ pth k ∈ get_accessible_fields n (pth (e - 1))) :
    Inv n k (revTarget b e k) (fun v => if e ≤ v ∧ v ≤ k then pth (e + k - v) else pth v) := by
  have hk1 : 1 ≤ k := hinv.1
  have h4 : ∀ r c, ¬ (r < n ∧ c < n) → b r c = 0 := hinv.2.2.2.1
  refine ⟨hk1, ?_, ?_, ?_, ?_⟩
  · intro w hw
    dsimp only
    by_cases hve : e ≤ w + 1
    · rw [if_pos ⟨hve, by omega⟩]
      have hu := inv_cell_pth hinv (v := e + k - (w + 1)) (by omega) (by omega)
      refine ⟨hu.1, ?_⟩
      rw [cell_revTarget, hu.2, if_pos (by omega)]
      omega
    · rw [if_neg (fun hx => hve hx.1)]
      have hu := inv_cell_pth hinv (v := w + 1) (by omega) (by omega)
      refine ⟨hu.1, ?_⟩
      rw [cell_revTarget, hu.2, if_neg (by omega)]
  · intro r hr c hc hne
    by_cases hw0 : b r c = 0
    · exfalso
      apply hne
      show revTarget b e k r c = 0
      unfold revTarget
      rw [hw0, if_neg (by omega)]
    · obtain ⟨hwk, hqe⟩ := inv_pos_eq hinv (v := b r c) (by omega) (p := (r, c)) rfl
      by_cases hcond : e ≤ b r c ∧ b r c ≤ k
      · have hval2 : revTarget b e k r c = e + k - b r c := by
          unfold revTarget; rw [if_pos hcond]
        rw [hval2]
        refine ⟨by omega, ?_⟩
        dsimp only
        rw [if_pos (by omega)]
        have heq2 : e + k - (e + k - b r c) = b r c := by omega
        rw [heq2]
        exact hqe
      · have hval2 : revTarget b e k r c = b r c := by
          unfold revTarget; rw [if_neg hcond]
        rw [hval2]
        refine ⟨by omega, ?_⟩
        dsimp only
        rw [if_neg (by omega)]
        exact hqe
  · intro r c hr
    show revTarget b e k r c = 0
    unfold revTarget
    rw [h4 r c hr, if_neg (by omega)]
  · intro w hw
    dsimp only
    have hv1 : 1 ≤ w + 1 := by omega
    have hvk : w + 1 < k := hw
    rcases Nat.lt_or_ge (w + 2) e with hlt | hge
    · rw [if_neg (by omega), if_neg (by omega)]
      exact inv_adj hinv hv1 hvk
    · by_cases hveq : w + 2 = e
      · rw [if_neg (by omega), if_pos (by omega)]
        have e3 : e + k - (w + 2) = k := by omega
        rw [e3]
        rcases hb with h1 | hmem
        · omega
        · have e4 : e - 1 = w + 1 := by omega
          rw [e4] at hmem
          exact hmem
      · have hve : e ≤ w + 1 := by omega
        rw [if_pos ⟨hve, by omega⟩, if_pos (by omega)]
        have hu1 : 1 ≤ e + k - (w + 2) := by omega
        have hadj := inv_adj hinv hu1 (by omega)
        have e6 : e + k - (w + 2) + 1 = e + k - (w + 1) := by omega
        rw [e6] at hadj
        exact accessible_symm (inv_cell_pth hinv (v := e + k - (w + 2)) (by omega) (by omega)).1 hadj

/-- What `reroute` knows about one non-skipped end on an invariant board: its
value `e` lies strictly inside `[1, k]`, it is the path square of `e`, the
reversal loop completes (never hitting a `None` cursor) and returns the full
segment reversal, and either `e = 1` or the square of `e - 1` is
knight-adjacent to the terminal. -/
theorem reroute_end_spec {n k : ℕ} {b : Board} {pth : ℕ → Pos} {last : Pos}
    (hinv : Inv n k b pth) (hlast : last = pth k) {f endp : Pos}
    (hf : f ∈ get_accessible_fields n last) (hend : get_next n b f = some endp)
    (hne : endp ≠ last) :
    1 ≤ cell b endp ∧ cell b endp < k ∧ endp = pth (cell b endp) ∧
    reroute_loop n b (some endp) (some last) (reroute_count b last endp) =
      some (revTarget b (cell b endp) k) ∧
    (cell b endp = 1 ∨ pth k ∈ get_accessible_fields n (pth (cell b endp - 1))) := by
  have hk1 : 1 ≤ k := hinv.1
  have hlast_cell : cell b last = k := by rw [hlast]; exact (inv_cell_pth hinv hk1 le_rfl).2
  have hlast_rng : inRange n last := by rw [hlast]; exact (inv_cell_pth hinv hk1 le_rfl).1
  have hcell : cell b endp = cell b f + 1 := by
    have := List.find?_some hend
    simpa using this
  have he1 : 1 ≤ cell b endp := by omega
  obtain ⟨hek, hendp⟩ := inv_pos_eq hinv he1 rfl
  have hlt : cell b endp < k := by
    rcases Nat.lt_or_ge (cell b endp) k with h | h
    · exact h
    · exfalso
      apply hne
      rw [hendp, hlast]
      congr 1
      omega
  refine ⟨he1, hlt, hendp, ?_, ?_⟩
  · set ev := cell b endp with hev
    have hcount : reroute_count b last endp = (k - ev) / 2 + 1 := by
      unfold reroute_count
      rw [hlast_cell]
      omega
    rw [hcount, hendp, hlast]
    have hrm := rev_main hinv he1 ((k - ev) / 2 + 1) ev k
      le_rfl (by omega) le_rfl (by omega) rfl
    rw [mask_init] at hrm
    exact hrm
  · by_cases h1 : cell b endp = 1
    · left; exact h1
    · right
      have hcf : cell b f = cell b endp - 1 := by omega
      have hf1 : 1 ≤ cell b f := by omega
      obtain ⟨-, hfe⟩ := inv_pos_eq hinv hf1 rfl
      rw [← hcf, ← hfe, ← hlast]
      exact accessible_symm hlast_rng hf

/-- Characterisation of every candidate yielded by `reroute` on an invariant
board whose terminal square is `pth k`: it is the full reversal of the value
segment `[cell b end, k]`, carries `end` itself (never the old `last`) as its
position component, and its rank component is what `get_rank` computes on the
reversed board. -/
theorem reroute_mem_char {n k : ℕ} {b : Board} {pth : ℕ → Pos} {last : Pos}
    (hinv : Inv n k b pth) (hlast : last = pth k) (fuel : ℕ) :
    ∀ t ∈ (reroute n b last fuel).1, ∃ f endp,
      f ∈ get_accessible_fields n last ∧ get_next n b f = some endp ∧
      endp ≠ last ∧ t.2.1 = endp ∧
      1 ≤ cell b endp ∧ cell b endp < k ∧ endp = pth (cell b endp) ∧
      t.1 = revTarget b (cell b endp) k ∧
      get_rank n t.1 none fuel = some t.2.2 ∧
      (cell b endp = 1 ∨ pth k ∈ get_accessible_fields n (pth (cell b endp - 1))) := by
  have hk1 : 1 ≤ k := hinv.1
  have hlast_cell : cell b last = k := by rw [hlast]; exact (inv_cell_pth hinv hk1 le_rfl).2
  have hlast_rng : inRange n last := by rw [hlast]; exact (inv_cell_pth hinv hk1 le_rfl).1
  have one_end : ∀ f endp, f ∈ get_accessible_fields n last →
      get_next n b f = some endp → endp ≠ last →
      1 ≤ cell b endp ∧ cell b endp < k ∧ endp = pth (cell b endp) ∧
      reroute_loop n b (some endp) (some last) (reroute_count b last endp) =
        some (revTarget b (cell b endp) k) ∧
      (cell b endp = 1 ∨ pth k ∈ get_accessible_fields n (pth (cell b endp - 1))) :=
    fun _ _ hf hend hne => reroute_end_spec hinv hlast hf hend hne
  -- induction over the generator loop
  have go_char : ∀ (ends : List (Option Pos)) (acc : List (Board × Pos × Option ℕ)),
      (∀ oe ∈ ends, ∃ f, f ∈ get_accessible_fields n last ∧ oe = get_next n b f) →
      (∀ t ∈ acc, ∃ f endp,
        f ∈ get_accessible_fields n last ∧ get_next n b f = some endp ∧
        endp ≠ last ∧ t.2.1 = endp ∧
        1 ≤ cell b endp ∧ cell b endp < k ∧ endp = pth (cell b endp) ∧
        t.1 = revTarget b (cell b endp) k ∧
        get_rank n t.1 none fuel = some t.2.2 ∧
        (cell b endp = 1 ∨ pth k ∈ get_accessible_fields n (pth (cell b endp - 1)))) →
      ∀ t ∈ (reroute_go n b last fuel ends acc).1, ∃ f endp,
        f ∈ get_accessible_fields n last ∧ get_next n b f = some endp ∧
        endp ≠ last ∧ t.2.1 = endp ∧
        1 ≤ cell b endp ∧ cell b endp < k ∧ endp = pth (cell b endp) ∧
        t.1 = revTarget b (cell b endp) k ∧
        get_rank n t.1 none fuel = some t.2.2 ∧
        (cell b endp = 1 ∨ pth k ∈ get_accessible_fields n (pth (cell b endp - 1))) := by
    intro ends
    induction ends with
    | nil => intro acc _ hacc t ht; exact hacc t ht
    | cons oe rest ih =>
      intro acc hends hacc
      match hoe : oe with
      | none =>
        intro t ht
        exact hacc t ht
      | some endp =>
        simp only [reroute_go]
        by_cases heq : endp = last
        · rw [if_pos heq]
          exact ih acc (fun x hx => hends x (List.mem_cons_of_mem _ hx)) hacc
        · rw [if_neg heq]
          obtain ⟨f, hf, hoe'⟩ := hends (some endp) (by simp)
          obtain ⟨he1, hlt, hendp, hloop, hbnd⟩ := one_end f endp hf hoe'.symm heq
          simp only [hloop]
          rcases hrk : get_rank n (revTarget b (cell b endp) k) none fuel with - | rk
          · simp only [hrk]
            intro t ht
            exact hacc t ht
          · simp only [hrk]
            apply ih _ (fun x hx => hends x (List.mem_cons_of_mem _ hx))
            intro t ht
            rcases List.mem_append.mp ht with h | h
            · exact hacc t h
            · have ht' : t = (revTarget b (cell b endp) k, endp, rk) := by
                simpa using h
              subst ht'
              exact ⟨f, endp, hf, hoe'.symm, heq, rfl, he1, hlt, hendp, rfl, hrk, hbnd⟩
  intro t ht
  apply go_char _ [] _ (by intro t ht; cases ht) t ht
  intro oe hoe
  rcases List.mem_map.mp hoe with ⟨f, hf, hoe'⟩
  exact ⟨f, hf, hoe'.symm⟩

/-! ### Concrete boards used as witnesses and counterexamples -/

theorem exB_inv : Inv 5 4 exB exPth := by
  refine ⟨by norm_num, by decide, by decide, ?_, ?_⟩
  · intro r c h
    exact ofList_outside (by decide) (by decide) r c h
  · intro w hw
    have hw3 : w < 3 := by omega
    interval_cases w <;> decide

/-! ### Claims C2, C3 and C10 -/

/-- **C2**: on a board whose filled values are exactly the multiset
`{1, …, k}`, each exactly once (the content of `Inv`, witnessed by a position
map), with consecutive values knight-adjacent and terminal `last` holding
`k`, every candidate board emitted by `reroute` satisfies the same invariant
for the same `k`: the value multiset is again exactly `{1, …, k}` and all
consecutive values remain knight-adjacent. -/
theorem claim_C2 {n k : ℕ} {b : Board} {pth : ℕ → Pos} {last : Pos} (fuel : ℕ)
    (hinv : Inv n k b pth) (hlast : last = pth k) :
    ∀ t ∈ (reroute n b last fuel).1, ∃ pth2, Inv n k t.1 pth2 := by
  intro t ht
  obtain ⟨f, endp, hf, hend, hne, ht21, he1, hlt, hendp, ht1, hrk, hbnd⟩ :=
    reroute_mem_char hinv hlast fuel t ht
  rw [ht1]
  exact ⟨_, revTarget_inv hinv he1 (by omega) hbnd⟩

theorem claim_C2_witness :
    Inv 5 4 exB exPth ∧ ((0 : ℕ), (0 : ℕ)) = exPth 4 ∧
      ∀ t ∈ (reroute 5 exB (0, 0) 30).1, ∃ pth2, Inv 5 4 t.1 pth2 :=
  ⟨exB_inv, by decide, claim_C2 30 exB_inv (by decide)⟩

/-- **C3, as the claim is stated, is false**: on `exB` (terminal `(0,0)`
holding the maximum 4), `reroute` emits a candidate whose position component
is `(3,3)` — the `end` square — not the original `last` position `(0,0)`. -/
theorem claim_C3_counterexample :
    ¬ (∀ t ∈ (reroute 5 exB (0, 0) 30).1, t.2.1 = ((0 : ℕ), (0 : ℕ))) := by
  decide

/-- **C3 (amended)**: every candidate tuple emitted by `reroute` carries as
its position component the `end` square itself — the successor (via
`get_next`) of an accessible neighbour of `last`, never equal to `last` —
which holds the maximum value `k` on the rerouted board; the third component
is the rank `get_rank` computes for the rerouted board. -/
theorem claim_C3_amended {n k : ℕ} {b : Board} {pth : ℕ → Pos} {last : Pos} (fuel : ℕ)
    (hinv : Inv n k b pth) (hlast : last = pth k) :
    ∀ t ∈ (reroute n b last fuel).1,
      ∃ f ∈ get_accessible_fields n last, get_next n b f = some t.2.1 ∧
        t.2.1 ≠ last ∧ cell t.1 t.2.1 = k ∧ get_rank n t.1 none fuel = some t.2.2 := by
  intro t ht
  obtain ⟨f, endp, hf, hend, hne, ht21, he1, hlt, hendp, ht1, hrk, hbnd⟩ :=
    reroute_mem_char hinv hlast fuel t ht
  refine ⟨f, hf, ?_, ?_, ?_, hrk⟩
  · rw [ht21]; exact hend
  · rw [ht21]; exact hne
  · rw [ht1, ht21, hendp, cell_revTarget, (inv_cell_pth hinv he1 (by omega)).2,
      if_pos ⟨le_rfl, by omega⟩]
    omega

theorem claim_C3_amended_witness :
    Inv 5 4 exB exPth ∧ ((0 : ℕ), (0 : ℕ)) = exPth 4 ∧
      ∀ t ∈ (reroute 5 exB (0, 0) 30).1,
        ∃ f ∈ get_accessible_fields 5 (0, 0), get_next 5 exB f = some t.2.1 ∧
          t.2.1 ≠ (0, 0) ∧ cell t.1 t.2.1 = 4 ∧ get_rank 5 t.1 none 30 = some t.2.2 :=
  ⟨exB_inv, by decide, claim_C3_amended 30 exB_inv (by decide)⟩

/-- **C10**: on an invariant board whose terminal `last` holds the maximum
and all of whose accessible neighbours are filled, `get_next` yields a valid
(`some`, in-range) end for every neighbour, and for every non-skipped end the
reversal loop runs to completion — no cursor is ever `None`, so every board
access in the loop is at an in-range path square and never faults. -/
theorem claim_C10 {n k : ℕ} {b : Board} {pth : ℕ → Pos} {last : Pos}
    (hinv : Inv n k b pth) (hlast : last = pth k)
    (hblocked : ∀ f ∈ get_accessible_fields n last, cell b f ≠ 0) :
    ∀ f ∈ get_accessible_fields n last, ∃ endp, get_next n b f = some endp ∧
      inRange n endp ∧
      (endp = last ∨
        reroute_loop n b (some endp) (some last) (reroute_count b last endp) ≠ none) := by
  intro f hf
  have hv1 : 1 ≤ cell b f := by have := hblocked f hf; omega
  obtain ⟨hvk, hfe⟩ := inv_pos_eq hinv hv1 rfl
  have hvlt : cell b f < k := by
    rcases Nat.lt_or_ge (cell b f) k with h | h
    · exact h
    · exfalso
      have hfl : f = last := by
        rw [hfe, hlast]
        congr 1
        omega
      rw [hfl] at hf
      exact not_self_mem_accessible hf
  have hnext : get_next n b f = some (pth (cell b f + 1)) := by
    unfold get_next
    apply find?_eq_some_of_unique
    · have := inv_adj hinv hv1 hvlt
      rw [← hfe] at this
      exact this
    · simp only [decide_eq_true_eq]
      exact (inv_cell_pth hinv (by omega) (by omega)).2
    · intro q hq hpq
      simp only [decide_eq_true_eq] at hpq
      exact (inv_pos_eq hinv (by omega) hpq).2
  refine ⟨pth (cell b f + 1), hnext, (inv_cell_pth hinv (by omega) (by omega)).1, ?_⟩
  by_cases hne : pth (cell b f + 1) = last
  · left; exact hne
  · right
    have hloop := (reroute_end_spec hinv hlast hf hnext hne).2.2.2.1
    rw [hloop]
    simp

theorem claim_C10_witness :
    Inv 5 4 exB exPth ∧ ((0 : ℕ), (0 : ℕ)) = exPth 4 ∧
      ∀ f ∈ get_accessible_fields 5 (0, 0), ∃ endp, get_next 5 exB f = some endp ∧
        inRange 5 endp ∧
        (endp = (0, 0) ∨
          reroute_loop 5 exB (some endp) (some (0, 0)) (reroute_count exB (0, 0) endp) ≠
            none) :=
  ⟨exB_inv, by decide, claim_C10 exB_inv (by decide) (by decide)⟩

/-! ### Claim C4: the Warnsdorff filler -/

/-- One-step unfolding of `wandorf_fill` (pure definitional equation). -/
theorem wandorf_fill_succ (n : ℕ) (b : Board) (p : Pos) (num fuel : ℕ) :
    wandorf_fill n b p num (fuel + 1) =
      if (get_possible_jumps n (write b p num) p).isEmpty then some (p, write b p num)
      else wandorf_fill n (write b p num)
        (best_jump_fold n (write b p num) (get_possible_jumps n (write b p num) p)).2
        (num + 1) fuel := rfl

theorem degree_lt_nine (n : ℕ) (b : Board) (p : Pos) : degree n b p < 9 := by
  unfold degree get_possible_jumps
  have h1 := List.length_filter_le (fun q => decide (cell b q = 0)) (get_accessible_fields n p)
  have h2 := length_accessible_le (n := n) (p := p)
  omega

/-- **C4**: one step of `wandorf_fill` writes the current number into the
current square; if the written board gives the square no empty accessible
neighbour the call returns that square (with the written board), otherwise it
recurses, with the incremented number, at a jump of minimum degree — degree
being the number of empty accessible neighbours on the written board — every
strictly earlier jump in the fixed offset order having strictly larger
degree and every later one at least this degree. -/
theorem claim_C4 (n : ℕ) (b : Board) (p : Pos) (num fuel : ℕ) :
    (get_possible_jumps n (write b p num) p = [] →
      wandorf_fill n b p num (fuel + 1) = some (p, write b p num)) ∧
    (get_possible_jumps n (write b p num) p ≠ [] →
      ∃ t₁ j t₂, get_possible_jumps n (write b p num) p = t₁ ++ j :: t₂ ∧
        (∀ z ∈ t₁, degree n (write b p num) j < degree n (write b p num) z) ∧
        (∀ z ∈ t₂, degree n (write b p num) j ≤ degree n (write b p num) z) ∧
        wandorf_fill n b p num (fuel + 1) =
          wandorf_fill n (write b p num) j (num + 1) fuel) := by
  constructor
  · intro hempty
    rw [wandorf_fill_succ, hempty]
    rfl
  · intro hne
    rcases foldl_first_min (degree n (write b p num))
        (get_possible_jumps n (write b p num) p) 9 ((0 : ℕ), (0 : ℕ)) with
      ⟨hall, -⟩ | ⟨t₁, j, t₂, hsplit, -, hbef, haft, heq⟩
    · exfalso
      rcases List.exists_mem_of_ne_nil _ hne with ⟨y, hy⟩
      have := hall y hy
      have := degree_lt_nine n (write b p num) y
      omega
    · refine ⟨t₁, j, t₂, hsplit, hbef, haft, ?_⟩
      rw [wandorf_fill_succ,
        if_neg (by rw [List.isEmpty_iff]; exact hne)]
      have hbest : (best_jump_fold n (write b p num)
          (get_possible_jumps n (write b p num) p)).2 = j := by
        unfold best_jump_fold
        rw [heq]
      rw [hbest]

theorem claim_C4_witness :
    (wandorf_fill 1 create_empty_board (0, 0) 1 (0 + 1) =
      some ((0, 0), write create_empty_board (0, 0) 1)) ∧
    (∃ t₁ j t₂,
      get_possible_jumps 5 (write create_empty_board (0, 0) 1) (0, 0) = t₁ ++ j :: t₂ ∧
      (∀ z ∈ t₁, degree 5 (write create_empty_board (0, 0) 1) j <
        degree 5 (write create_empty_board (0, 0) 1) z) ∧
      (∀ z ∈ t₂, degree 5 (write create_empty_board (0, 0) 1) j ≤
        degree 5 (write create_empty_board (0, 0) 1) z) ∧
      wandorf_fill 5 create_empty_board (0, 0) 1 (3 + 1) =
        wandorf_fill 5 (write create_empty_board (0, 0) 1) j 2 3) :=
  ⟨(claim_C4 1 create_empty_board (0, 0) 1 0).1 (by decide),
    (claim_C4 5 create_empty_board (0, 0) 1 3).2 (by decide)⟩

/-! ### Claim C7: the BFS distance -/

theorem iterFrontier_back (n : ℕ) :
    ∀ j ch, iterFrontier n (j + 1) ch = frontierStep n (iterFrontier n j ch) := by
  intro j
  induction j with
  | zero => intro ch; rfl
  | succ j ih =>
    intro ch
    show iterFrontier n (j + 1) (frontierStep n ch) = _
    rw [ih]
    rfl

theorem mem_frontierStep {n : ℕ} {ch : List Pos} {q : Pos} :
    q ∈ frontierStep n ch ↔ ∃ c ∈ ch, q ∈ get_accessible_fields n c := by
  unfold frontierStep
  rw [List.mem_dedup, List.mem_flatMap]

theorem mem_iterFrontier_reach (n : ℕ) :
    ∀ j (a q : Pos), q ∈ iterFrontier n j [a] ↔ reachN n j a q := by
  intro j
  induction j with
  | zero =>
    intro a q
    show q ∈ [a] ↔ q = a
    simp
  | succ j ih =>
    intro a q
    rw [iterFrontier_back, mem_frontierStep]
    show (∃ c ∈ iterFrontier n j [a], q ∈ get_accessible_fields n c) ↔
      ∃ c, reachN n j a c ∧ q ∈ get_accessible_fields n c
    constructor
    · rintro ⟨c, hc, hq⟩
      exact ⟨c, (ih a c).mp hc, hq⟩
    · rintro ⟨c, hc, hq⟩
      exact ⟨c, (ih a c).mpr hc, hq⟩

theorem reach_inRange {n : ℕ} : ∀ {j : ℕ} {a q : Pos}, reachN n (j + 1) a q → inRange n q := by
  intro j a q h
  obtain ⟨c, -, hq⟩ := h
  exact accessible_inRange hq

theorem reach_cons (n : ℕ) :
    ∀ j (a q : Pos), reachN n (j + 1) a q ↔
      ∃ c, c ∈ get_accessible_fields n a ∧ reachN n j c q := by
  intro j
  induction j with
  | zero =>
    intro a q
    show (∃ c, c = a ∧ q ∈ get_accessible_fields n c) ↔
      ∃ c, c ∈ get_accessible_fields n a ∧ q = c
    constructor
    · rintro ⟨c, rfl, hq⟩
      exact ⟨q, hq, rfl⟩
    · rintro ⟨c, hc, rfl⟩
      exact ⟨a, rfl, hc⟩
  | succ j ih =>
    intro a q
    constructor
    · rintro ⟨c, hc, hq⟩
      obtain ⟨d, hd, hdc⟩ := (ih a c).mp hc
      exact ⟨d, hd, c, hdc, hq⟩
    · rintro ⟨d, hd, c, hdc, hq⟩
      exact ⟨c, (ih a c).mpr ⟨d, hd, hdc⟩, hq⟩

theorem reach_symm {n : ℕ} :
    ∀ {j : ℕ} {a q : Pos}, inRange n a → reachN n j a q → reachN n j q a := by
  intro j
  induction j with
  | zero =>
    intro a q _ h
    exact h.symm
  | succ j ih =>
    intro a q ha h
    obtain ⟨c, hc, hq⟩ := h
    have hcr : inRange n c := by
      cases j with
      | zero => rw [hc]; exact ha
      | succ j2 => exact reach_inRange hc
    refine (reach_cons n j q a).mpr ⟨c, accessible_symm hcr hq, ih ha hc⟩

/-- One-step unfolding of `spl_loop` (pure definitional equation). -/
theorem spl_loop_succ (n : ℕ) (tgt : Pos) (ch : List Pos) (d fuel : ℕ) :
    spl_loop n tgt ch d (fuel + 1) =
      if tgt ∈ ch then some d
      else spl_loop n tgt (frontierStep n ch) (d + 1) fuel := rfl

theorem spl_loop_eq_some {n : ℕ} {tgt : Pos} :
    ∀ {f : ℕ} {ch : List Pos} {d0 e : ℕ}, spl_loop n tgt ch d0 f = some e →
      ∃ j, j < f ∧ e = d0 + j ∧ tgt ∈ iterFrontier n j ch ∧
        ∀ j2 < j, tgt ∉ iterFrontier n j2 ch := by
  intro f
  induction f with
  | zero => intro ch d0 e h; cases h
  | succ f ih =>
    intro ch d0 e h
    rw [spl_loop_succ] at h
    by_cases hmem : tgt ∈ ch
    · rw [if_pos hmem] at h
      have he : e = d0 := (Option.some.inj h).symm
      exact ⟨0, by omega, by omega, hmem, by omega⟩
    · rw [if_neg hmem] at h
      obtain ⟨j, hjf, he, hm, hmin⟩ := ih h
      refine ⟨j + 1, by omega, by omega, hm, ?_⟩
      intro j2 hj2
      cases j2 with
      | zero => exact hmem
      | succ j3 =>
        show tgt ∉ iterFrontier n j3 (frontierStep n ch)
        exact hmin j3 (by omega)

theorem spl_loop_of_found {n : ℕ} {tgt : Pos} :
    ∀ {j : ℕ} {ch : List Pos} (d0 : ℕ) {f : ℕ}, tgt ∈ iterFrontier n j ch →
      (∀ j2 < j, tgt ∉ iterFrontier n j2 ch) → j < f →
      spl_loop n tgt ch d0 f = some (d0 + j) := by
  intro j
  induction j with
  | zero =>
    intro ch d0 f hmem _ hjf
    cases f with
    | zero => omega
    | succ f =>
      rw [spl_loop_succ, if_pos (show tgt ∈ ch from hmem)]
      simp
  | succ j ih =>
    intro ch d0 f hmem hmin hjf
    cases f with
    | zero => omega
    | succ f =>
      rw [spl_loop_succ, if_neg (show tgt ∉ ch from hmin 0 (by omega))]
      have hrec := ih (d0 + 1)
        (show tgt ∈ iterFrontier n j (frontierStep n ch) from hmem)
        (fun j2 hj2 =>
          show tgt ∉ iterFrontier n j2 (frontierStep n ch) from hmin (j2 + 1) (by omega))
        (show j < f by omega)
      rw [hrec]
      congr 1
      omega

/-- **C7**: the BFS hop distance is 0 from a square to itself, and is
symmetric between mutually reachable on-board squares: whenever the BFS from
`a` reports distance `d` to `b`, the BFS from `b` reports the same distance
`d` to `a` (fuel `d + 1` suffices). -/
theorem claim_C7 {n : ℕ} {a b : Pos} {d fuel : ℕ} (ha : inRange n a) (hb : inRange n b)
    (h : shortest_path_length n a b fuel = some d) :
    shortest_path_length n a a 1 = some 0 ∧
      shortest_path_length n b a (d + 1) = some d := by
  constructor
  · unfold shortest_path_length spl_loop
    rw [if_pos (by simp)]
  · unfold shortest_path_length at h ⊢
    obtain ⟨j, hjf, he, hmem, hmin⟩ := spl_loop_eq_some h
    have hdj : d = j := by omega
    subst hdj
    have h1 : reachN n d a b := (mem_iterFrontier_reach n d a b).mp hmem
    have h2 : reachN n d b a := reach_symm ha h1
    have hmem2 : a ∈ iterFrontier n d [b] := (mem_iterFrontier_reach n d b a).mpr h2
    have hmin2 : ∀ j2 < d, a ∉ iterFrontier n j2 [b] := by
      intro j2 hj2 hmem3
      exact hmin j2 hj2 ((mem_iterFrontier_reach n j2 a b).mpr
        (reach_symm hb ((mem_iterFrontier_reach n j2 b a).mp hmem3)))
    have := spl_loop_of_found 0 hmem2 hmin2 (show d < d + 1 by omega)
    rw [this]
    simp

theorem claim_C7_witness :
    shortest_path_length 5 (0, 0) (0, 0) 1 = some 0 ∧
      shortest_path_length 5 (1, 2) (0, 0) (1 + 1) = some 1 :=
  claim_C7 (by decide) (by decide) (by decide : shortest_path_length 5 (0, 0) (1, 2) 3 = some 1)

/-! ### Claim C6: the verifier -/

theorem mem_rowMajor {n : ℕ} {p : Pos} : p ∈ rowMajor n ↔ inRange n p := by
  unfold rowMajor inRange
  rw [List.mem_flatMap]
  constructor
  · rintro ⟨r, hr, hp⟩
    rcases List.mem_map.mp hp with ⟨c, hc, rfl⟩
    exact ⟨List.mem_range.mp hr, List.mem_range.mp hc⟩
  · rintro ⟨h1, h2⟩
    exact ⟨p.1, List.mem_range.mpr h1,
      List.mem_map.mpr ⟨p.2, List.mem_range.mpr h2, by cases p; rfl⟩⟩

/-- On an invariant board `find` locates value 1 at its unique square. -/
theorem find_one_inv {n k : ℕ} {b : Board} {pth : ℕ → Pos} (hinv : Inv n k b pth) :
    find n b 1 = some (pth 1) := by
  unfold find
  apply find?_eq_some_of_unique
  · exact mem_rowMajor.mpr (inv_cell_pth hinv le_rfl hinv.1).1
  · simp only [decide_eq_true_eq]
    exact (inv_cell_pth hinv le_rfl hinv.1).2
  · intro q hq hpq
    simp only [decide_eq_true_eq] at hpq
    exact (inv_pos_eq hinv le_rfl hpq).2

/-- On an invariant board `get_max` locates the unique maximum `k`. -/
theorem get_max_inv {n k : ℕ} {b : Board} {pth : ℕ → Pos} (hinv : Inv n k b pth) :
    get_max n b = pth k := by
  unfold get_max
  rw [foldl_max_unique (cell b) k (pth k) (rowMajor n) 0 ((0 : ℕ), (0 : ℕ)) hinv.1
    (mem_rowMajor.mpr (inv_cell_pth hinv hinv.1 le_rfl).1)
    (inv_cell_pth hinv hinv.1 le_rfl).2 ?_ ?_]
  · intro z hz
    by_cases h0 : cell b z = 0
    · omega
    · exact (inv_pos_eq hinv (by omega) rfl).1
  · intro z hz hzk
    exact (inv_pos_eq hinv hinv.1 hzk).2

/-- On an invariant board `get_next` from the square of `v < k` finds the
square of `v + 1`. -/
theorem get_next_inv {n k : ℕ} {b : Board} {pth : ℕ → Pos} (hinv : Inv n k b pth)
    {v : ℕ} (hv1 : 1 ≤ v) (hvk : v < k) :
    get_next n b (pth v) = some (pth (v + 1)) := by
  unfold get_next
  rw [(inv_cell_pth hinv hv1 (by omega)).2]
  apply find?_eq_some_of_unique
  · exact inv_adj hinv hv1 hvk
  · simp only [decide_eq_true_eq]
    exact (inv_cell_pth hinv (by omega) (by omega)).2
  · intro q hq hpq
    simp only [decide_eq_true_eq] at hpq
    exact (inv_pos_eq hinv (by omega) hpq).2

theorem verify_loop_succ (n : ℕ) (b : Board) (mval : ℕ) (p : Pos) (i fuel : ℕ) :
    verify_loop n b mval p i (fuel + 1) =
      if cell b p < mval then
        match get_next n b p with
        | none => none
        | some q => if cell b q ≠ i then some false else verify_loop n b mval q (i + 1) fuel
      else some true := rfl

theorem verify_loop_inv {n k : ℕ} {b : Board} {pth : ℕ → Pos} (hinv : Inv n k b pth) :
    ∀ fuel v, 1 ≤ v → v ≤ k → k - v < fuel →
      verify_loop n b k (pth v) (v + 1) fuel = some true := by
  intro fuel
  induction fuel with
  | zero => intro v _ _ h; omega
  | succ fuel ih =>
    intro v hv1 hvk hfuel
    rw [verify_loop_succ, (inv_cell_pth hinv hv1 hvk).2]
    rcases Nat.lt_or_ge v k with hlt | hge
    · rw [if_pos hlt]
      simp only [get_next_inv hinv hv1 hlt]
      rw [if_neg (by
        rw [(inv_cell_pth hinv (v := v + 1) (by omega) (by omega)).2]
        omega)]
      exact ih (v + 1) (by omega) (by omega) (by omega)
    · rw [if_neg (by omega)]

/-- **C6 (amended), forward direction**: if the filled values of a board are
exactly `{1, …, k}` with no repeats and no gaps and consecutive values
knight-adjacent (the invariant `Inv`, where `k` is then the board maximum),
then `verify` returns `true` (with fuel at least `k`). -/
theorem claim_C6_amended {n k : ℕ} {b : Board} {pth : ℕ → Pos} (hinv : Inv n k b pth)
    {fuel : ℕ} (hfuel : k ≤ fuel) : verify n b fuel = some true := by
  have hk1 : 1 ≤ k := hinv.1
  unfold verify
  rw [get_max_inv hinv, (inv_cell_pth hinv hinv.1 le_rfl).2]
  simp only [find_one_inv hinv]
  have h2 : (2 : ℕ) = 1 + 1 := rfl
  rw [h2]
  exact verify_loop_inv hinv fuel 1 le_rfl hinv.1 (by omega)

theorem claim_C6_amended_witness : verify 5 exB 10 = some true :=
  claim_C6_amended exB_inv (by norm_num)

/-- **C6, as the claim is stated, is false**: `verify` returns `true` on
`dupB` although the value 4 occurs on two different squares, so
"verify = true" does not imply "no repeated values" — the claimed
equivalence fails in the only-if direction. -/
theorem claim_C6_counterexample :
    verify 5 dupB 10 = some true ∧ dupB 0 4 = 4 ∧ dupB 4 3 = 4 ∧
      ¬ ((0 : ℕ), (4 : ℕ)) = ((4 : ℕ), (3 : ℕ)) := by
  decide

/-! ### Claim C1: behaviour on the 3×3 board and on an empty generation -/

theorem wandorf_fill_mono {n : ℕ} :
    ∀ {f1 : ℕ} {b : Board} {p : Pos} {num : ℕ} {x : Pos × Board},
      wandorf_fill n b p num f1 = some x →
      ∀ {f2 : ℕ}, f1 ≤ f2 → wandorf_fill n b p num f2 = some x := by
  intro f1
  induction f1 with
  | zero => intro b p num x h; cases h
  | succ f1 ih =>
    intro b p num x h f2 hle
    cases f2 with
    | zero => omega
    | succ f2 =>
      rw [wandorf_fill_succ] at h ⊢
      by_cases hempty : (get_possible_jumps n (write b p num) p).isEmpty
      · rw [if_pos hempty] at h ⊢
        exact h
      · rw [if_neg hempty] at h ⊢
        exact ih h (by omega)

theorem wandorf_fill_det {n : ℕ} {b : Board} {p : Pos} {num : ℕ} {f1 f2 : ℕ}
    {x y : Pos × Board} (h1 : wandorf_fill n b p num f1 = some x)
    (h2 : wandorf_fill n b p num f2 = some y) : x = y := by
  rcases Nat.le_total f1 f2 with h | h
  · have := wandorf_fill_mono h1 h
    rw [this] at h2
    exact Option.some.inj h2
  · have := wandorf_fill_mono h2 h
    rw [this] at h1
    exact (Option.some.inj h1).symm

/-- No on-board square of the 3×3 board has a knight move into the centre
`(1,1)`. -/
theorem center_not_accessible : ∀ p : Pos, inRange 3 p → (1, 1) ∉ get_accessible_fields 3 p := by
  intro p hp h
  obtain ⟨hp1, hp2⟩ := hp
  rcases mem_accessible.mp h with ⟨d, hd, h1, h2, -, -⟩
  simp only [deltas, List.mem_cons, List.not_mem_nil, or_false] at hd
  rcases hd with h | h | h | h | h | h | h | h <;> subst h <;> simp only at h1 h2 <;> omega

theorem center_not_in_frontierStep (ch : List Pos) (hch : ∀ q ∈ ch, inRange 3 q) :
    (1, 1) ∉ frontierStep 3 ch := by
  intro h
  rcases mem_frontierStep.mp h with ⟨c, hcch, hc⟩
  exact center_not_accessible c (hch c hcch) hc

/-- The BFS of `shortest_path_length` towards the unreachable centre of the
3×3 board runs forever: for every fuel the loop is still running. -/
theorem spl_center_none :
    ∀ (f : ℕ) (ch : List Pos) (d : ℕ), (1, 1) ∉ ch → (∀ q ∈ ch, inRange 3 q) →
      spl_loop 3 (1, 1) ch d f = none := by
  intro f
  induction f with
  | zero => intro ch d _ _; rfl
  | succ f ih =>
    intro ch d hch hrng
    rw [spl_loop_succ, if_neg hch]
    exact ih _ _ (center_not_in_frontierStep ch hrng)
      (fun q hq => by
        rcases mem_frontierStep.mp hq with ⟨c, -, hc⟩
        exact accessible_inRange hc)

theorem w3_spec : wandorf_fill 3 create_empty_board (0, 0) 1 9 = some w3 := by
  have h : (wandorf_fill 3 create_empty_board (0, 0) 1 9).isSome = true := by decide
  rcases hh : wandorf_fill 3 create_empty_board (0, 0) 1 9 with - | x
  · rw [hh] at h; cases h
  · unfold w3; rw [hh]; rfl

/-- On the blocked 3×3 board, `reroute` crashes out with no candidate for
every fuel: the first non-skipped end leads to a rank computation whose BFS
(towards the empty centre) never returns. -/
theorem reroute_w3 : ∀ f, reroute 3 w3.2 w3.1 f = ([], false) := by
  intro f
  have hends : (get_accessible_fields 3 w3.1).map (get_next 3 w3.2) =
      [some (2, 1), some (1, 2)] := by decide
  unfold reroute
  rw [hends]
  simp only [reroute_go]
  rw [if_neg (by decide : ¬ ((2 : ℕ), (1 : ℕ)) = w3.1)]
  rcases hrl : reroute_loop 3 w3.2 (some (2, 1)) (some w3.1)
      (reroute_count w3.2 w3.1 (2, 1)) with - | b2
  · simp only [hrl]
  · simp only [hrl]
    have hb2 : b2 = (reroute_loop 3 w3.2 (some (2, 1)) (some w3.1)
        (reroute_count w3.2 w3.1 (2, 1))).getD create_empty_board := by
      rw [hrl]; rfl
    have hrank : get_rank 3 b2 none f = none := by
      unfold get_rank
      have hef : empty_fields 3 b2 = [(1, 1)] := by rw [hb2]; decide
      rw [hef]
      simp only [rank_fold]
      have hspl : shortest_path_length 3 ((none : Option Pos).getD (get_max 3 b2))
          (1, 1) f = none := by
        unfold shortest_path_length
        apply spl_center_none
        · rw [List.mem_singleton, hb2]
          decide
        · intro q hq
          rw [List.mem_singleton] at hq
          rw [hq, hb2]
          decide
      rw [hspl]
    simp only [hrank]

theorem solve_loop_w3 : ∀ f rc i, solve_loop 3 [(w3.2, w3.1)] rc i f = none := by
  intro f rc i
  cases f with
  | zero => rfl
  | succ f =>
    simp only [solve_loop, process_trials, reroute_w3 f, process_cands]
    rfl

/-- The generation loop on an empty candidate list never returns: each
iteration produces another empty generation and the `while` spins forever. -/
theorem solve_loop_empty : ∀ (n : ℕ) (fuel rc i : ℕ), solve_loop n [] rc i fuel = none := by
  intro n fuel
  induction fuel with
  | zero => intro rc i; rfl
  | succ fuel ih =>
    intro rc i
    simp only [solve_loop, process_trials]
    exact ih rc (i + 1)

/-- **C1, against the code**: the claim (and spec §7/§9) requires `solve` to
return an explicit `SearchExhausted` failure on the 3×3 board and whenever a
generation empties, instead of continuing.  The code does neither: from the
empty 3×3 board and start `(0,0)` `solve` never returns for any fuel (its
first reroute's rank BFS loops forever towards the unreachable centre), and
from an empty generation the `while` loop spins forever for any fuel. -/
theorem claim_C1_code_divergence :
    (∀ fuel, solve 3 create_empty_board 0 0 fuel = none) ∧
    (∀ (n : ℕ) (fuel rc i : ℕ), solve_loop n [] rc i fuel = none) := by
  constructor
  · intro fuel
    unfold solve
    rcases hw : wandorf_fill 3 create_empty_board (0, 0) 1 fuel with - | x
    · rfl
    · have hx : x = w3 := wandorf_fill_det hw w3_spec
      subst hx
      have hcell : ¬ cell w3.2 w3.1 = 3 * 3 := by decide
      simp only [hcell, if_false]
      exact solve_loop_w3 fuel 0 0
  · exact solve_loop_empty

/-! ### Claim C5: no start validation -/

/-- **C5, against the code**: `solve` performs no start validation.  With
`N = 5` and start `(-1, 0)` the very first statement executed mutates the
board — Python's negative indexing writes 1 into row 4, column 0 — instead
of failing with `InvalidStart` before any mutation; and with start `(5, 0)`
the call dies with an uncaught `IndexError`, not an `InvalidStart` outcome. -/
theorem claim_C5_code_divergence :
    solve_first_write empty5 (-1) 0 =
      some [[0, 0, 0, 0, 0], [0, 0, 0, 0, 0], [0, 0, 0, 0, 0], [0, 0, 0, 0, 0],
        [1, 0, 0, 0, 0]] ∧
    solve_first_write empty5 (-1) 0 ≠ some empty5 ∧
    solve_first_write empty5 5 0 = none := by
  decide

/-! ### Claim C8: the shape of the result record -/

theorem process_cands_found {n i fuel : ℕ} :
    ∀ {cands : List (Board × Pos × Option ℕ)} {acc : List (Board × Pos)} {rc : ℕ}
      {res : Result}, process_cands n i fuel cands acc rc = CandRes.found res →
      ∃ b2 rc2, res = mkResultLoop b2 rc2 i := by
  intro cands
  induction cands with
  | nil =>
    intro acc rc res h
    exact CandRes.noConfusion h
  | cons hd rest ih =>
    intro acc rc res h
    obtain ⟨b2, endp, rk⟩ := hd
    simp only [process_cands] at h
    by_cases hrk : rk = some 1
    · rw [if_pos hrk] at h
      rcases hw : wandorf_fill n b2 endp (cell b2 endp) fuel with - | x
      · simp only [hw] at h
        exact CandRes.noConfusion h
      · obtain ⟨las2, b3⟩ := x
        simp only [hw] at h
        by_cases hc : cell b3 las2 = n * n
        · rw [if_pos hc] at h
          injection h with h2
          exact ⟨b3, rc + 1, h2.symm⟩
        · rw [if_neg hc] at h
          exact CandRes.noConfusion h
    · rw [if_neg hrk] at h
      exact ih h

theorem process_trials_found {n i fuel : ℕ} :
    ∀ {trials acc : List (Board × Pos)} {rc : ℕ} {res : Result},
      process_trials n i fuel trials acc rc = GenRes.found res →
      ∃ b2 rc2, res = mkResultLoop b2 rc2 i := by
  intro trials
  induction trials with
  | nil =>
    intro acc rc res h
    exact GenRes.noConfusion h
  | cons hd rest ih =>
    intro acc rc res h
    obtain ⟨b2, last⟩ := hd
    simp only [process_trials] at h
    rcases hpc : process_cands n i fuel (reroute n b2 last fuel).1 acc rc with
      res2 | ⟨acc2, rc2⟩ | ⟨acc2, rc2⟩ | -
    · simp only [hpc] at h
      injection h with h2
      subst h2
      exact process_cands_found hpc
    · simp only [hpc] at h
      exact GenRes.noConfusion h
    · simp only [hpc] at h
      by_cases hok : (reroute n b2 last fuel).2
      · rw [if_pos hok] at h
        exact ih h
      · rw [if_neg hok] at h
        exact GenRes.noConfusion h
    · simp only [hpc] at h
      exact GenRes.noConfusion h

theorem solve_loop_some {n : ℕ} :
    ∀ {fuel : ℕ} {boards : List (Board × Pos)} {rc i : ℕ} {res : Result},
      solve_loop n boards rc i fuel = some res →
      ∃ b2 rc2 i2, res = mkResultLoop b2 rc2 i2 := by
  intro fuel
  induction fuel with
  | zero => intro boards rc i res h; cases h
  | succ fuel ih =>
    intro boards rc i res h
    simp only [solve_loop] at h
    rcases hpt : process_trials n (i + 1) fuel boards [] rc with res2 | ⟨boards2, rc2⟩ | -
    · simp only [hpt] at h
      injection h with h2
      subst h2
      obtain ⟨b2, rc2, he⟩ := process_trials_found hpt
      exact ⟨b2, rc2, i + 1, he⟩
    · simp only [hpt] at h
      exact ih h
    · simp only [hpt] at h
      exact Option.noConfusion h

/-- **C8 (amended)**: whenever `solve` terminates it returns one of the two
dict literals of the source — keys `board, iterations, reroutes, time`
(first-try success) or `board, reroutes, iterations, time` (loop success).
In particular there is no `success` field at all: the claimed Result record
`{board, success, reroute_count, generation_count}` does not match the code,
which signals success by returning at all and also carries a `time` entry. -/
theorem claim_C8_amended {n : ℕ} {b : Board} {r c fuel : ℕ} {res : Result}
    (h : solve n b r c fuel = some res) :
    ("board" ∈ res.map Prod.fst ∧ "reroutes" ∈ res.map Prod.fst ∧
      "iterations" ∈ res.map Prod.fst ∧ "time" ∈ res.map Prod.fst ∧
      "success" ∉ res.map Prod.fst) ∧
    (res.map Prod.fst = ["board", "iterations", "reroutes", "time"] ∨
      res.map Prod.fst = ["board", "reroutes", "iterations", "time"]) := by
  have hshape : (∃ b1, res = mkResultFirst b1) ∨ ∃ b2 rc2 i2, res = mkResultLoop b2 rc2 i2 := by
    unfold solve at h
    rcases hw : wandorf_fill n b (r, c) 1 fuel with - | x
    · rw [hw] at h; cases h
    · obtain ⟨las, b1⟩ := x
      simp only [hw] at h
      by_cases hc : cell b1 las = n * n
      · rw [if_pos hc] at h
        rcases hv : verify n b1 fuel with - | bv
        · simp only [hv] at h
          exact Option.noConfusion h
        · simp only [hv] at h
          cases bv with
          | true =>
            simp only at h
            injection h with h2
            exact Or.inl ⟨b1, h2.symm⟩
          | false =>
            simp only at h
            exact Or.inr (solve_loop_some h)
      · rw [if_neg hc] at h
        exact Or.inr (solve_loop_some h)
  rcases hshape with ⟨b1, rfl⟩ | ⟨b2, rc2, i2, rfl⟩
  · have hkeys : (mkResultFirst b1).map Prod.fst =
        ["board", "iterations", "reroutes", "time"] := rfl
    rw [hkeys]
    exact ⟨by decide, Or.inl rfl⟩
  · have hkeys : (mkResultLoop b2 rc2 i2).map Prod.fst =
        ["board", "reroutes", "iterations", "time"] := rfl
    rw [hkeys]
    exact ⟨by decide, Or.inr rfl⟩

theorem claim_C8_witness :
    ("board" ∈ (mkResultFirst (write create_empty_board (0, 0) 1)).map Prod.fst ∧
      "reroutes" ∈ (mkResultFirst (write create_empty_board (0, 0) 1)).map Prod.fst ∧
      "iterations" ∈ (mkResultFirst (write create_empty_board (0, 0) 1)).map Prod.fst ∧
      "time" ∈ (mkResultFirst (write create_empty_board (0, 0) 1)).map Prod.fst ∧
      "success" ∉ (mkResultFirst (write create_empty_board (0, 0) 1)).map Prod.fst) ∧
    ((mkResultFirst (write create_empty_board (0, 0) 1)).map Prod.fst =
        ["board", "iterations", "reroutes", "time"] ∨
      (mkResultFirst (write create_empty_board (0, 0) 1)).map Prod.fst =
        ["board", "reroutes", "iterations", "time"]) :=
  claim_C8_amended (show solve 1 create_empty_board 0 0 2 =
    some (mkResultFirst (write create_empty_board (0, 0) 1)) from rfl)

/-- **C8, as the claim is stated, is false**: a terminating invocation
(`N = 1`) returns a dict whose key set is `board, iterations, reroutes,
time` — there is no `success` field. -/
theorem claim_C8_counterexample :
    (solve 1 create_empty_board 0 0 2).map (fun res => res.map Prod.fst) =
      some ["board", "iterations", "reroutes", "time"] ∧
    "success" ∉ ["board", "iterations", "reroutes", "time"] := by
  constructor
  · rfl
  · decide

/-! ### Claim C9: determinism -/

/-- **C9**: `solve` is a pure function of `(N, start, fuel)` once the board
is fixed; two runs on independently created empty boards with the same size
and start produce identical results — identical boards, reroute counts and
iteration counts.  (The embedding is deterministic because the algorithm
contains no randomness: the only set iteration in the source, inside
`shortest_path_length`, influences the result only through membership.) -/
theorem claim_C9 (n r c fuel : ℕ) (b1 b2 : Board)
    (h1 : b1 = create_empty_board) (h2 : b2 = create_empty_board) :
    solve n b1 r c fuel = solve n b2 r c fuel := by
  subst h1
  subst h2
  rfl

theorem claim_C9_witness :
    solve 5 create_empty_board 0 0 60 = solve 5 create_empty_board 0 0 60 :=
  claim_C9 5 0 0 60 create_empty_board create_empty_board rfl rfl

end KnightTour
